import Mathlib

/-!
Shallow embedding of `classgit.py` (Malwprotector/classgit).

The program synchronizes a plaintext `courses/` tree into an `encrypted/`
mirror tree (one `age`-encrypted file per source file, named `<file>.age`),
commits the mirror as a single orphan git commit and force-pushes it; `pull`
fetches, aligns with `origin/main`, and decrypts every `.age` file back into
`courses/`.

Modelling conventions:
  - a filesystem name is a `List Char` (Python strings), a path is a list of
    name components relative to the relevant root;
  - a directory tree is a flat association list of file paths to file data
    (modification time and byte content) plus an explicit list of directory
    paths; `os.walk` loops become structural recursion over those lists;
  - the external `age` tool is an abstract function on byte contents; a
    fallible invocation returns `Except Unit (List Nat)` (`error` models a
    non-zero exit status of the subprocess);
  - `Path.with_suffix('')` (used to map `x.age` back to `x`) is modelled
    character-faithfully, including CPython's rule that a suffix must start
    strictly after position 0 and before the last character;
  - the git calls of `push_courses` (lines 223-232) are a fixed command list
    interpreted by a small-step `gitStep` over an explicit repository state;
    `git add -A` keeps already-tracked paths and otherwise stages exactly the
    worktree paths not excluded by the `.gitignore` that `push_courses`
    writes (lines 211-218).
-/

set_option synthInstance.maxHeartbeats 1000000
set_option maxHeartbeats 1000000

namespace ClassGit

/-- A filesystem name (one path component), as a list of characters. -/
abbrev Name := List Char

/-- A path relative to some root: a list of components, the last one being
the file or directory name. -/
abbrev Path := List Name

/-- Data of a regular file: its modification time and byte content. -/
structure FileData where
  mtime : Nat
  content : List Nat
deriving DecidableEq, Repr

/-- A directory tree, flattened: regular files with their data, and the
directory paths present under the root (the root itself is not listed). -/
structure Tree where
  files : List (Path × FileData)
  dirs : List Path
deriving DecidableEq, Repr

/-- Lookup of a file by path (first match), modelling a filesystem `stat`. -/
def findFile : List (Path × FileData) → Path → Option FileData
  | [], _ => none
  | (q, fd) :: rest, p => if q = p then some fd else findFile rest p

/-- Remove every entry with the given path. -/
def removeKey : List (Path × FileData) → Path → List (Path × FileData)
  | [], _ => []
  | (q, fd) :: rest, p => if q = p then removeKey rest p else (q, fd) :: removeKey rest p

/-- Write a file at a path, replacing any previous file there. -/
def Tree.setFile (t : Tree) (p : Path) (fd : FileData) : Tree :=
  { t with files := (p, fd) :: removeKey t.files p }

/-- Boolean membership of a path in a list of paths. -/
def memPath : List Path → Path → Bool
  | [], _ => false
  | d :: ds, p => if d = p then true else memPath ds p

/-- The paths of the entries of an association list. -/
def keys (L : List (Path × FileData)) : List Path := L.map Prod.fst

/-- The fixed encrypted-file suffix `".age"` appended by `push_courses`
(line 172). -/
def ageSuffix : Name := ".age".toList

/-- The mirror file name: `f + ".age"` (line 172). -/
def addAge (f : Name) : Name := f ++ ageSuffix

/-- Python `str.endswith(".age")` (lines 180 and 273). -/
def endsWithAge (f : Name) : Bool := decide (ageSuffix <:+ f)

/-- The last component of a path (the file name). -/
def lastName : Path → Name
  | [] => []
  | [f] => f
  | _ :: rest => lastName rest

/-- Whether a path names a `.age` file. -/
def isAgeFile (q : Path) : Bool := endsWithAge (lastName q)

/-- Index of the last `'.'` in a name, if any (Python `str.rfind('.')`,
which `pathlib` uses to locate the suffix). -/
def rfindDot : Name → Option Nat
  | [] => none
  | c :: cs =>
    match rfindDot cs with
    | some i => some (i + 1)
    | none => if c = '.' then some 0 else none

/-- CPython `PurePath.with_suffix('')` applied to a single name: drop the
last dot-suffix, where a suffix exists only when the last dot is neither the
first nor the last character of the name. -/
def withSuffixEmpty (f : Name) : Name :=
  match rfindDot f with
  | some i => if 0 < i ∧ i + 1 < f.length then f.take i else f
  | none => f

/-- The mirror path of a source path: same directory components, `".age"`
appended to the file name (line 172). -/
def mirrorPath : Path → Path
  | [] => []
  | [f] => [addAge f]
  | d :: rest => d :: mirrorPath rest

/-- `rel.with_suffix('')` applied to a relative path: strip the suffix of the
last component (lines 187 and 276). -/
def stripAgePath : Path → Path
  | [] => []
  | [f] => [withSuffixEmpty f]
  | d :: rest => d :: stripAgePath rest

/-- A well-formed file path: non-empty, with a non-empty file name. -/
def validPathB : Path → Bool
  | [] => false
  | [f] => decide (f ≠ [])
  | _ :: rest => validPathB rest

/-- Staleness test of line 173: re-encrypt when the mirror file is absent or
the source's modification time is strictly greater than the mirror's. -/
def needsUpdate (src : FileData) (dst : Option FileData) : Bool :=
  match dst with
  | none => true
  | some d => decide (src.mtime > d.mtime)

/-- Whether an external invocation reported a non-zero exit status. -/
def isErr : Except Unit (List Nat) → Bool
  | Except.error _ => true
  | Except.ok _ => false

/-- The invariant that lets `pull` invert `push`'s naming: re-appending
`".age"` after stripping the suffix gives the path back. It holds for every
mirror file `push` itself writes. -/
def ageFileInv (q : Path) : Prop := isAgeFile q = true → mirrorPath (stripAgePath q) = q

instance (q : Path) : Decidable (ageFileInv q) := by
  unfold ageFileInv
  infer_instance

/-- Encryption pass of `push_courses` (lines 166-175), fallible variant:
walk the source files in order; for each stale file invoke the external
encryption tool; a non-zero exit (`Except.error`) propagates immediately
(`encrypt_file` uses `check=True`, line 78), naming the failing source path.
Returns the updated mirror and the list of source paths actually encrypted. -/
def encryptPassE (enc : List Nat → Except Unit (List Nat)) (now : Nat) :
    List (Path × FileData) → Tree → List Path → Except Path (Tree × List Path)
  | [], m, log => Except.ok (m, log)
  | (p, fd) :: rest, m, log =>
    if needsUpdate fd (findFile m.files (mirrorPath p)) then
      match enc fd.content with
      | Except.ok c => encryptPassE enc now rest (m.setFile (mirrorPath p) ⟨now, c⟩) (log ++ [p])
      | Except.error _ => Except.error p
    else encryptPassE enc now rest m log

/-- Encryption pass, infallible variant (external tool always succeeds). -/
def encryptPassP (encP : List Nat → List Nat) (now : Nat) :
    List (Path × FileData) → Tree → List Path → Tree × List Path
  | [], m, log => (m, log)
  | (p, fd) :: rest, m, log =>
    if needsUpdate fd (findFile m.files (mirrorPath p)) then
      encryptPassP encP now rest (m.setFile (mirrorPath p) ⟨now, encP fd.content⟩) (log ++ [p])
    else encryptPassP encP now rest m log

/-- `orig.exists()` (line 188): the path exists under the source root as a
file or as a directory. -/
def existsPath (t : Tree) (p : Path) : Bool :=
  (findFile t.files p).isSome || memPath t.dirs p

/-- Keep condition of the orphan-removal pass (lines 178-193): non-`.age`
files are skipped (kept); a `.age` file is kept iff its suffix-stripped
source path still exists. -/
def keepEnc (courses : Tree) (q : Path) : Bool :=
  if isAgeFile q then existsPath courses (stripAgePath q) else true

/-- Orphan-removal pass: delete every mirror file whose source is gone. -/
def orphanFilter (courses : Tree) : List (Path × FileData) → List (Path × FileData)
  | [] => []
  | (q, fd) :: rest =>
    if keepEnc courses q then (q, fd) :: orphanFilter courses rest
    else orphanFilter courses rest

/-- Orphan-removal pass on a mirror tree. -/
def orphanPass (courses m : Tree) : Tree := { m with files := orphanFilter courses m.files }

/-- Whether some file lies strictly below directory `d`. -/
def hasFileUnder (files : List (Path × FileData)) (d : Path) : Bool :=
  files.any fun qf => decide (d <+: qf.1) && decide (d ≠ qf.1)

/-- Empty-directory pass (lines 196-205): the bottom-up walk with a fresh
emptiness check at each directory removes exactly the directories with no
file anywhere strictly below them; the mirror root itself is excluded
(line 198) and is not represented in `dirs`. -/
def pruneEmptyDirs (m : Tree) : Tree :=
  { m with dirs := m.dirs.filter fun d => hasFileUnder m.files d }

/-- Directory creation of lines 168-169 (`mkdir(parents=True, exist_ok=True)`
for every walked source directory). -/
def addDirs (ds newDirs : List Path) : List Path :=
  newDirs.foldl (fun acc d => if memPath acc d then acc else acc ++ [d]) ds

/-- Git commands issued by `push_courses` (lines 223-232). -/
inductive GitCmd where
  | checkoutOrphan (branch : String)
  | addAll
  | commit (msg : String)
  | branchDelete (branch : String)
  | branchRename (branch : String)
  | reflogExpire
  | gc
  | pushForce (branch : String)
deriving DecidableEq, Repr

/-- The fixed commit message of line 225. -/
def snapshotMsg : String := "Snapshot: update courses and README"

/-- The git sequence of `push_courses` (lines 223-232): it is unconditional,
with no check of whether anything is staged. -/
def pushGitSequence : List GitCmd :=
  [GitCmd.checkoutOrphan "temp-branch", GitCmd.addAll, GitCmd.commit snapshotMsg,
   GitCmd.branchDelete "main", GitCmd.branchRename "main",
   GitCmd.reflogExpire, GitCmd.gc, GitCmd.pushForce "main"]

/-- Whether a git command is a commit. -/
def isCommitCmd : GitCmd → Bool
  | GitCmd.commit _ => true
  | _ => false

/-- Result of one `push_courses` run: the final mirror tree, the source paths
that were encrypted, and the git commands executed. -/
structure PushResult where
  mirror : Tree
  encLog : List Path
  gitCmds : List GitCmd
deriving DecidableEq, Repr

/-- `not any(COURSES_DIR.iterdir())` (line 156): the source root has no
entries at all. -/
def isEmptyTree (t : Tree) : Bool := t.files.isEmpty && t.dirs.isEmpty

/-- One `push_courses` run with infallible encryption: early return when the
source root is empty (lines 156-158); otherwise mirror directories are
created, the encryption pass runs, then the orphan pass, then the
empty-directory pass, then the unconditional git snapshot sequence. -/
def pushRunP (encP : List Nat → List Nat) (now : Nat) (courses mirror : Tree) : PushResult :=
  if isEmptyTree courses then ⟨mirror, [], []⟩
  else
    let m0 : Tree := { mirror with dirs := addDirs mirror.dirs courses.dirs }
    let r := encryptPassP encP now courses.files m0 []
    ⟨pruneEmptyDirs (orphanPass courses r.1), r.2, pushGitSequence⟩

/-- One `push_courses` run with fallible encryption: a non-zero exit of the
external encryption tool propagates (uncaught `CalledProcessError`), so the
orphan pass, the empty-directory pass and the whole git sequence are never
reached. -/
def pushRunE (enc : List Nat → Except Unit (List Nat)) (now : Nat) (courses mirror : Tree) :
    Except Path PushResult :=
  if isEmptyTree courses then Except.ok ⟨mirror, [], []⟩
  else
    let m0 : Tree := { mirror with dirs := addDirs mirror.dirs courses.dirs }
    match encryptPassE enc now courses.files m0 [] with
    | Except.error p => Except.error p
    | Except.ok r => Except.ok ⟨pruneEmptyDirs (orphanPass courses r.1), r.2, pushGitSequence⟩

/-- Decryption loop of `pull_courses` (lines 271-289): every `.age` file is
decrypted to its suffix-stripped path under `courses/`; a failing decryption
(`CalledProcessError`, caught at lines 286-289) is recorded and the loop
continues; non-`.age` files are skipped. -/
def decryptPass (dec : List Nat → Except Unit (List Nat)) (now : Nat) :
    List (Path × FileData) → Tree → List Path → Tree × List Path
  | [], cs, failed => (cs, failed)
  | (q, fd) :: rest, cs, failed =>
    if isAgeFile q then
      match dec fd.content with
      | Except.ok c => decryptPass dec now rest (cs.setFile (stripAgePath q) ⟨now, c⟩) failed
      | Except.error _ => decryptPass dec now rest cs (failed ++ [q])
    else decryptPass dec now rest cs failed

/-- Result of the decryption phase of `pull_courses`. -/
structure PullResult where
  courses : Tree
  failed : List Path
deriving DecidableEq, Repr

/-- The decryption phase of one `pull_courses` run, applied to the mirror
tree obtained from the remote. -/
def pullDecrypt (dec : List Nat → Except Unit (List Nat)) (now : Nat)
    (mirror cs : Tree) : PullResult :=
  let r := decryptPass dec now mirror.files cs []
  ⟨r.1, r.2⟩

/-- A git commit as this program observes it: the set of staged paths it
snapshots, and its message. -/
structure Commit where
  tree : List Path
  message : String
deriving DecidableEq, Repr

/-- Branch lookup in an association list of branch names to histories
(newest commit first). -/
def findBr : List (String × List Commit) → String → Option (List Commit)
  | [], _ => none
  | (b, h) :: rest, n => if b = n then some h else findBr rest n

/-- Remove a branch. -/
def removeBr : List (String × List Commit) → String → List (String × List Commit)
  | [], _ => []
  | (b, h) :: rest, n => if b = n then removeBr rest n else (b, h) :: removeBr rest n

/-- Create or overwrite a branch. -/
def setBr (bs : List (String × List Commit)) (n : String) (h : List Commit) :
    List (String × List Commit) :=
  (n, h) :: removeBr bs n

/-- The names written to `.gitignore` by `configure_repo` and `push_courses`. -/
def configName : Name := "config".toList

/-- The `courses` directory name. -/
def coursesName : Name := "courses".toList

/-- The private key file name (`config/age_key.txt`, line 59). -/
def ageKeyName : Name := "age_key.txt".toList

/-- The `.gitignore` file name. -/
def gitignoreName : Name := ".gitignore".toList

/-- The `README.md` file name. -/
def readmeName : Name := "README.md".toList

/-- The repo-relative path of the private key file. -/
def ageKeyRel : Path := [configName, ageKeyName]

/-- The `.gitignore` written by `push_courses` (lines 211-218): ignore
everything under `config/` and `courses/`, keep `.gitignore` and
`README.md`. -/
def ignoredByPushGitignore (p : Path) : Bool :=
  if p = [gitignoreName] ∨ p = [readmeName] then false
  else
    match p with
    | c :: _ => decide (c = configName) || decide (c = coursesName)
    | [] => false

/-- Effect of `git add -A` (line 224) on the index under the `.gitignore` of
lines 211-218: the new index holds exactly the worktree paths that are
either not ignored or already tracked. -/
def stagedAfterAddAll (index worktree : List Path) : List Path :=
  worktree.filter fun p => !ignoredByPushGitignore p || memPath index p

/-- State of the local repository and of the remote `main` branch as the git
commands of `push_courses` act on it. -/
structure GitState where
  branches : List (String × List Commit)
  headBranch : String
  headIsOrphan : Bool
  index : List Path
  worktree : List Path
  remoteMain : List Commit

/-- Small-step semantics of the git commands `push_courses` issues.
`checkout --orphan` moves HEAD to an unborn branch keeping index and
worktree; `commit` on an unborn branch creates a single-commit history;
`branch -D` deletes; `branch -m` renames the current branch; `reflog expire`
and `gc` do not change this abstraction; `push --force` replaces the remote
branch with the local one unconditionally. -/
def gitStep : GitCmd → GitState → GitState
  | GitCmd.checkoutOrphan b, s => { s with headBranch := b, headIsOrphan := true }
  | GitCmd.addAll, s => { s with index := stagedAfterAddAll s.index s.worktree }
  | GitCmd.commit m, s =>
    let hist :=
      if s.headIsOrphan then [⟨s.index, m⟩]
      else ⟨s.index, m⟩ :: ((findBr s.branches s.headBranch).getD [])
    { s with branches := setBr s.branches s.headBranch hist, headIsOrphan := false }
  | GitCmd.branchDelete b, s => { s with branches := removeBr s.branches b }
  | GitCmd.branchRename n, s =>
    match findBr s.branches s.headBranch with
    | some h => { s with branches := setBr (removeBr s.branches s.headBranch) n h, headBranch := n }
    | none => { s with headBranch := n }
  | GitCmd.reflogExpire, s => s
  | GitCmd.gc, s => s
  | GitCmd.pushForce b, s => { s with remoteMain := (findBr s.branches b).getD [] }

/-- Run a list of git commands in order. -/
def runGit : List GitCmd → GitState → GitState
  | [], s => s
  | c :: cs, s => runGit cs (gitStep c s)

/-- Index evolution across successive pushes: each push runs `git add -A`
(the orphan checkout keeps the index, and committing does not change it). -/
def pushIndexIter : List (List Path) → List Path → List Path
  | [], idx => idx
  | wt :: rest, idx => pushIndexIter rest (stagedAfterAddAll idx wt)

/-- The staged sets produced by successive pushes with the given worktrees,
starting from a given index. -/
def stagedSets : List (List Path) → List Path → List (List Path)
  | [], _ => []
  | wt :: rest, idx => stagedAfterAddAll idx wt :: stagedSets rest (stagedAfterAddAll idx wt)

/-- The index after `configure_repo` (lines 110-117): the initial commit
stages only `.gitignore`. -/
def initialIndex : List Path := [[gitignoreName]]

/-- Python `needle in haystack` on strings, as used at line 249. -/
def isPrefixOfB : List Char → List Char → Bool
  | [], _ => true
  | _ :: _, [] => false
  | a :: as, b :: bs => if a = b then isPrefixOfB as bs else false

/-- Substring occurrence check (Python `in`). -/
def hasInfixB (needle : List Char) : List Char → Bool
  | [] => isPrefixOfB needle []
  | c :: cs => isPrefixOfB needle (c :: cs) || hasInfixB needle cs

/-- The divergence test of line 249 on the output of
`git status --porcelain=2 --branch`: the string contains `"branch.ab"` and
contains `"+"`. -/
def divergedCheck (statusOut : List Char) : Bool :=
  hasInfixB "branch.ab".toList statusOut && hasInfixB "+".toList statusOut

/-- The git actions the sync part of `pull_courses` (lines 241-260) can end
in. -/
inductive PullGitAction where
  | fetchFailedReturn
  | resetDiverged
  | resetDivergedFailedReturn
  | fastForward
  | resetAfterFailedFF
deriving DecidableEq, Repr

/-- Control flow of lines 241-260: failed fetch returns early; a positive
divergence test hard-resets to `origin/main` (returning early if the reset
fails); otherwise `git pull --ff-only` runs, falling back to an unchecked
hard reset if it fails. -/
def pullGitAction (fetchOk : Bool) (statusOut : List Char) (resetOk pullOk : Bool) :
    PullGitAction :=
  if !fetchOk then PullGitAction.fetchFailedReturn
  else if divergedCheck statusOut then
    (if resetOk then PullGitAction.resetDiverged else PullGitAction.resetDivergedFailedReturn)
  else if pullOk then PullGitAction.fastForward
  else PullGitAction.resetAfterFailedFF

/-- A realistic `git status --porcelain=2 --branch` output for a local
branch that is strictly behind its upstream (0 ahead, 1 behind): a
fast-forward is possible and the histories have not diverged. -/
def statusBehindOnly : List Char :=
  ("# branch.oid 1111111111111111111111111111111111111111\n" ++
   "# branch.head main\n" ++
   "# branch.upstream origin/main\n" ++
   "# branch.ab +0 -1\n").toList

/-- How an operation of this program ends at process level. -/
inductive ProcOutcome where
  | continue0
  | exitNonzero (code : Nat) (msg : List Char)
  | raisedError (cmd : List Char)
deriving DecidableEq, Repr

/-- Whether an outcome terminates the process with a failure. -/
def isFatalExit : ProcOutcome → Bool
  | ProcOutcome.continue0 => false
  | ProcOutcome.exitNonzero _ _ => true
  | ProcOutcome.raisedError _ => true

/-- The diagnostic prefix printed by `run` (line 69). -/
def runErrMsg (cmd : List Char) : List Char := "Error running: ".toList ++ cmd

/-- The `run` helper (lines 66-70): on non-zero exit it prints
`"Error running: <cmd>"` and calls `exit(1)`. -/
def runFn (cmd : List Char) (ok : Bool) : ProcOutcome :=
  if ok then ProcOutcome.continue0 else ProcOutcome.exitNonzero 1 (runErrMsg cmd)

/-- A `subprocess.run(..., check=True)` call with no surrounding handler
(as in `push_courses` and `encrypt_file`): on non-zero exit it raises
`CalledProcessError`, whose message names the command, and the uncaught
exception terminates the interpreter with a non-zero status. -/
def checkedRun (cmd : List Char) (ok : Bool) : ProcOutcome :=
  if ok then ProcOutcome.continue0 else ProcOutcome.raisedError cmd

/-- Process-level outcome of the git phase of `pull_courses`
(lines 241-260), together with whether the decryption phase is reached.
Every branch returns normally to the menu: no branch calls `exit` or lets an
exception escape, so the process never terminates with a non-zero status
here even when `git fetch` or `git reset` fails. -/
def pullGitOutcome (fetchOk : Bool) (statusOut : List Char) (resetOk pullOk : Bool) :
    ProcOutcome × Bool :=
  match pullGitAction fetchOk statusOut resetOk pullOk with
  | PullGitAction.fetchFailedReturn => (ProcOutcome.continue0, false)
  | PullGitAction.resetDiverged => (ProcOutcome.continue0, true)
  | PullGitAction.resetDivergedFailedReturn => (ProcOutcome.continue0, false)
  | PullGitAction.fastForward => (ProcOutcome.continue0, true)
  | PullGitAction.resetAfterFailedFF => (ProcOutcome.continue0, true)

/-- A concrete stand-in for the external encryption: prepend a `0` byte. -/
def encW : List Nat → List Nat := fun c => 0 :: c

/-- The matching concrete decryption: strip the leading `0` byte, failing on
contents that `encW` cannot have produced (a foreign-keyed blob). -/
def decW : List Nat → Except Unit (List Nat) := fun c =>
  match c with
  | 0 :: rest => Except.ok rest
  | _ => Except.error ()

/-- An always-failing external encryption tool. -/
def encFailW : List Nat → Except Unit (List Nat) := fun _ => Except.error ()

/-- The empty tree. -/
def emptyTree : Tree := ⟨[], []⟩

/-- The scenario path `math/hw1.txt`. -/
def hw1Path : Path := ["math".toList, "hw1.txt".toList]

/-- A concrete source tree holding `math/hw1.txt`. -/
def coursesW : Tree := ⟨[(hw1Path, ⟨5, [7, 7]⟩)], [["math".toList]]⟩

/-- A worktree for a concrete push: the private key, the README, and one
encrypted file. -/
def wt1W : List Path :=
  [ageKeyRel, [readmeName], ["encrypted".toList, "a.txt.age".toList]]

/-- A one-push sequence of worktrees. -/
def wtsW : List (List Path) := [wt1W]

/-- A source tree where `b.txt` has been deleted and `a.txt` remains. -/
def coursesW5 : Tree := ⟨[(["a.txt".toList], ⟨5, [1]⟩)], []⟩

/-- The deleted source path. -/
def pGoneW : Path := ["b.txt".toList]

/-- A mirror holding encrypted copies of both files, plus a now-empty
subdirectory. -/
def mirrorW5 : Tree :=
  ⟨[(mirrorPath ["a.txt".toList], ⟨1, [8]⟩), (mirrorPath pGoneW, ⟨1, [9]⟩)],
   [["sub".toList]]⟩

/-- A mirror with one decryptable and one undecryptable `.age` file. -/
def mirrorW8 : Tree :=
  ⟨[(["a.txt.age".toList], ⟨1, [0, 3]⟩), (["bad.age".toList], ⟨1, [9]⟩)], []⟩

/-! Lookup lemmas for the flat filesystem representation. -/

theorem findFile_removeKey_self (L : List (Path × FileData)) (p : Path) :
    findFile (removeKey L p) p = none := by
  induction L with
  | nil => rfl
  | cons hd rest ih =>
    obtain ⟨q, fd⟩ := hd
    by_cases hq : q = p
    · simpa [removeKey, hq] using ih
    · simp [removeKey, hq, findFile, ih]

theorem findFile_removeKey_ne (L : List (Path × FileData)) (p k : Path) (h : k ≠ p) :
    findFile (removeKey L p) k = findFile L k := by
  induction L with
  | nil => rfl
  | cons hd rest ih =>
    obtain ⟨q, fd⟩ := hd
    by_cases hq : q = p
    · subst hq
      have : q ≠ k := fun hqk => h (hqk ▸ rfl)
      simp [removeKey, findFile, this, ih]
    · by_cases hk : q = k
      · simp [removeKey, hq, findFile, hk, h]
      · simp [removeKey, hq, findFile, hk, ih]

theorem findFile_setFile_self (t : Tree) (p : Path) (fd : FileData) :
    findFile (t.setFile p fd).files p = some fd := by
  simp [Tree.setFile, findFile]

theorem findFile_setFile_ne (t : Tree) (p k : Path) (fd : FileData) (h : k ≠ p) :
    findFile (t.setFile p fd).files k = findFile t.files k := by
  have : p ≠ k := fun hpk => h (hpk ▸ rfl)
  simp [Tree.setFile, findFile, this, findFile_removeKey_ne _ _ _ h]

theorem findFile_eq_some_mem {L : List (Path × FileData)} {k : Path} {v : FileData}
    (h : findFile L k = some v) : (k, v) ∈ L := by
  induction L with
  | nil => simp [findFile] at h
  | cons hd rest ih =>
    obtain ⟨q, fd⟩ := hd
    by_cases hq : q = k
    · subst hq
      simp [findFile] at h
      simp [h]
    · simp [findFile, hq] at h
      exact List.mem_cons_of_mem _ (ih h)

theorem isSome_findFile_of_mem {L : List (Path × FileData)} {k : Path} {v : FileData}
    (h : (k, v) ∈ L) : (findFile L k).isSome = true := by
  induction L with
  | nil => simp at h
  | cons hd rest ih =>
    obtain ⟨q, fd⟩ := hd
    by_cases hq : q = k
    · simp [findFile, hq]
    · rcases List.mem_cons.mp h with h | h
      · exact absurd (congrArg Prod.fst h).symm hq
      · simp [findFile, hq, ih h]

theorem memPath_iff (L : List Path) (p : Path) : memPath L p = true ↔ p ∈ L := by
  induction L with
  | nil => simp [memPath]
  | cons d ds ih =>
    by_cases hd : d = p
    · simp [memPath, hd]
    · have : p ≠ d := fun h => hd h.symm
      simp [memPath, hd, ih, this]

theorem mem_keys {L : List (Path × FileData)} {p : Path} :
    p ∈ keys L ↔ ∃ fd, (p, fd) ∈ L := by
  constructor
  · intro h
    rcases List.mem_map.mp h with ⟨⟨q, fd⟩, hq, he⟩
    exact ⟨fd, by simpa [← he] using hq⟩
  · rintro ⟨fd, h⟩
    exact List.mem_map.mpr ⟨(p, fd), h, rfl⟩

theorem findFile_of_mem_nodup {L : List (Path × FileData)} (h : (keys L).Nodup)
    {p : Path} {fd : FileData} (hm : (p, fd) ∈ L) : findFile L p = some fd := by
  induction L with
  | nil => simp at hm
  | cons hd rest ih =>
    obtain ⟨q, gd⟩ := hd
    have hnd : q ∉ keys rest ∧ (keys rest).Nodup := List.nodup_cons.mp h
    by_cases hq : q = p
    · subst hq
      rcases List.mem_cons.mp hm with he | he
      · have h2 : fd = gd := congrArg Prod.snd he
        simp [findFile, h2]
      · exact absurd (mem_keys.mpr ⟨fd, he⟩) hnd.1
    · rcases List.mem_cons.mp hm with he | he
      · exact absurd (congrArg Prod.fst he).symm hq
      · simpa [findFile, hq] using ih hnd.2 he

theorem removeKey_sublist (L : List (Path × FileData)) (p : Path) :
    (removeKey L p).Sublist L := by
  induction L with
  | nil => simp [removeKey]
  | cons hd rest ih =>
    obtain ⟨q, fd⟩ := hd
    by_cases hq : q = p
    · simpa [removeKey, hq] using List.Sublist.cons (q, fd) ih
    · simpa [removeKey, hq] using List.Sublist.cons₂ (q, fd) ih

theorem not_mem_keys_removeKey (L : List (Path × FileData)) (p : Path) :
    p ∉ keys (removeKey L p) := by
  induction L with
  | nil => simp [removeKey, keys]
  | cons hd rest ih =>
    obtain ⟨q, gd⟩ := hd
    by_cases hq : q = p
    · simpa [removeKey, hq] using ih
    · intro h
      have h' : p = q ∨ ∃ x, (p, x) ∈ removeKey rest p := by
        simpa [removeKey, hq, keys] using h
      rcases h' with he | ⟨x, he⟩
      · exact hq he.symm
      · exact ih (mem_keys.mpr ⟨x, he⟩)

theorem keys_nodup_setFile (t : Tree) (p : Path) (fd : FileData)
    (h : (keys t.files).Nodup) : (keys (t.setFile p fd).files).Nodup := by
  have hsub : (keys (removeKey t.files p)).Sublist (keys t.files) :=
    List.Sublist.map Prod.fst (removeKey_sublist t.files p)
  have hnd : (keys (removeKey t.files p)).Nodup := List.Nodup.sublist hsub h
  have hnm : p ∉ keys (removeKey t.files p) := not_mem_keys_removeKey t.files p
  simpa [Tree.setFile, keys, List.nodup_cons] using
    And.intro (by simpa [keys] using hnm) (by simpa [keys] using hnd)

theorem mem_setFile {t : Tree} {p : Path} {fd : FileData} {e : Path × FileData}
    (h : e ∈ (t.setFile p fd).files) : e = (p, fd) ∨ e ∈ t.files := by
  rcases List.mem_cons.mp h with he | he
  · exact Or.inl he
  · exact Or.inr ((removeKey_sublist t.files p).subset he)

/-! Lemmas on the `.age` suffix arithmetic. -/

theorem rfindDot_append_age (f : Name) : rfindDot (f ++ ageSuffix) = some f.length := by
  induction f with
  | nil => decide
  | cons c cs ih => simp [rfindDot, ih]

theorem withSuffixEmpty_addAge (f : Name) (hf : f ≠ []) : withSuffixEmpty (addAge f) = f := by
  have h := rfindDot_append_age f
  have hlen : 0 < f.length := List.length_pos.mpr hf
  have hcond : 0 < f.length ∧ f.length + 1 < (f ++ ageSuffix).length := by
    refine ⟨hlen, ?_⟩
    simp [ageSuffix]
  simp only [withSuffixEmpty, addAge, h, hcond, if_pos]
  exact List.take_left f ageSuffix

theorem mirrorPath_ne_nil {p : Path} (h : p ≠ []) : mirrorPath p ≠ [] := by
  cases p with
  | nil => exact absurd rfl h
  | cons d rest => cases rest <;> simp [mirrorPath]

theorem lastName_cons (d : Name) (X : Path) (h : X ≠ []) : lastName (d :: X) = lastName X := by
  cases X with
  | nil => exact absurd rfl h
  | cons e r => rfl

theorem stripAgePath_cons (d : Name) (X : Path) (h : X ≠ []) :
    stripAgePath (d :: X) = d :: stripAgePath X := by
  cases X with
  | nil => exact absurd rfl h
  | cons e r => rfl

theorem stripAge_mirrorPath (p : Path) (hv : validPathB p = true) :
    stripAgePath (mirrorPath p) = p := by
  induction p with
  | nil => simp [validPathB] at hv
  | cons d rest ih =>
    cases rest with
    | nil =>
      have hd : d ≠ [] := by simpa [validPathB] using hv
      simp [mirrorPath, stripAgePath, withSuffixEmpty_addAge d hd]
    | cons e r =>
      have hv' : validPathB (e :: r) = true := by simpa [validPathB] using hv
      have hne : mirrorPath (e :: r) ≠ [] := mirrorPath_ne_nil (by simp)
      simp only [mirrorPath]
      rw [stripAgePath_cons d _ hne, ih hv']

theorem mirrorPath_inj {p q : Path} (hp : validPathB p = true) (hq : validPathB q = true)
    (h : mirrorPath p = mirrorPath q) : p = q := by
  have := congrArg stripAgePath h
  rwa [stripAge_mirrorPath p hp, stripAge_mirrorPath q hq] at this

theorem isAgeFile_cons (d : Name) (X : Path) (h : X ≠ []) : isAgeFile (d :: X) = isAgeFile X := by
  simp [isAgeFile, lastName_cons d X h]

theorem isAgeFile_mirrorPath (p : Path) (hv : validPathB p = true) :
    isAgeFile (mirrorPath p) = true := by
  induction p with
  | nil => simp [validPathB] at hv
  | cons d rest ih =>
    cases rest with
    | nil =>
      simp only [mirrorPath, isAgeFile, lastName, endsWithAge, addAge]
      exact decide_eq_true (List.suffix_append d ageSuffix)
    | cons e r =>
      have hv' : validPathB (e :: r) = true := by simpa [validPathB] using hv
      have hne : mirrorPath (e :: r) ≠ [] := mirrorPath_ne_nil (by simp)
      calc isAgeFile (mirrorPath (d :: e :: r))
          = isAgeFile (mirrorPath (e :: r)) := isAgeFile_cons d _ hne
        _ = true := ih hv'

theorem ageFileInv_mirrorPath (p : Path) (hv : validPathB p = true) :
    ageFileInv (mirrorPath p) := by
  intro _
  rw [stripAge_mirrorPath p hv]

/-! Lemmas on the encryption pass of `push_courses`. -/

theorem encryptPassP_untouched (encP : List Nat → List Nat) (now : Nat)
    (L : List (Path × FileData)) (k : Path) :
    ∀ m log, (∀ pf ∈ L, mirrorPath pf.1 ≠ k) →
      findFile (encryptPassP encP now L m log).1.files k = findFile m.files k := by
  induction L with
  | nil => intro m log _; rfl
  | cons hd rest ih =>
    intro m log h
    obtain ⟨p, fd⟩ := hd
    have hk : mirrorPath p ≠ k := h (p, fd) (List.mem_cons_self _ _)
    have hrest : ∀ pf ∈ rest, mirrorPath pf.1 ≠ k :=
      fun pf hm => h pf (List.mem_cons_of_mem _ hm)
    by_cases hu : needsUpdate fd (findFile m.files (mirrorPath p)) = true
    · simp only [encryptPassP, if_pos hu]
      rw [ih _ _ hrest, findFile_setFile_ne _ _ _ _ (Ne.symm hk)]
    · simp only [encryptPassP, if_neg hu]
      exact ih _ _ hrest

theorem mirrorPath_ne_of_ne {p q : Path} (hp : validPathB p = true) (hq : validPathB q = true)
    (h : p ≠ q) : mirrorPath p ≠ mirrorPath q :=
  fun he => h (mirrorPath_inj hp hq he)

theorem encryptPassP_lookup (encP : List Nat → List Nat) (now : Nat)
    (L : List (Path × FileData)) (p : Path) (fd : FileData) :
    ∀ m log, (p, fd) ∈ L → (keys L).Nodup → (∀ pf ∈ L, validPathB pf.1 = true) →
      findFile (encryptPassP encP now L m log).1.files (mirrorPath p) =
        if needsUpdate fd (findFile m.files (mirrorPath p)) then some ⟨now, encP fd.content⟩
        else findFile m.files (mirrorPath p) := by
  induction L with
  | nil => intro m log hm _ _; simp at hm
  | cons hd rest ih =>
    intro m log hm hnd hv
    obtain ⟨q, gd⟩ := hd
    have hndr : q ∉ keys rest ∧ (keys rest).Nodup := List.nodup_cons.mp hnd
    have hvq : validPathB q = true := hv (q, gd) (List.mem_cons_self _ _)
    have hvr : ∀ pf ∈ rest, validPathB pf.1 = true :=
      fun pf hx => hv pf (List.mem_cons_of_mem _ hx)
    have hvp : validPathB p = true := by
      rcases List.mem_cons.mp hm with he | he
      · have hpq : p = q := congrArg Prod.fst he
        rw [hpq]; exact hvq
      · exact hvr (p, fd) he
    by_cases hq : q = p
    · subst hq
      have hhead : gd = fd := by
        rcases List.mem_cons.mp hm with he | he
        · exact (congrArg Prod.snd he).symm
        · exact absurd (mem_keys.mpr ⟨fd, he⟩) hndr.1
      subst hhead
      have huntouched : ∀ pf ∈ rest, mirrorPath pf.1 ≠ mirrorPath q := by
        intro pf hx
        refine mirrorPath_ne_of_ne (hvr pf hx) hvq ?_
        intro he
        exact hndr.1 (he ▸ mem_keys.mpr ⟨pf.2, hx⟩)
      by_cases hu : needsUpdate gd (findFile m.files (mirrorPath q)) = true
      · simp only [encryptPassP, if_pos hu, hu, if_true]
        rw [encryptPassP_untouched _ _ _ _ _ _ huntouched, findFile_setFile_self]
      · simp only [encryptPassP, if_neg hu]
        exact encryptPassP_untouched _ _ _ _ _ _ huntouched
    · have hmr : (p, fd) ∈ rest := by
        rcases List.mem_cons.mp hm with he | he
        · exact absurd (congrArg Prod.fst he).symm hq
        · exact he
      have hne : mirrorPath q ≠ mirrorPath p := mirrorPath_ne_of_ne hvq hvp hq
      by_cases hu : needsUpdate gd (findFile m.files (mirrorPath q)) = true
      · simp only [encryptPassP, if_pos hu]
        rw [ih _ _ hmr hndr.2 hvr, findFile_setFile_ne _ _ _ _ (Ne.symm hne)]
      · simp only [encryptPassP, if_neg hu]
        exact ih _ _ hmr hndr.2 hvr

theorem encryptPassP_log (encP : List Nat → List Nat) (now : Nat)
    (L : List (Path × FileData)) :
    ∀ m log, (keys L).Nodup → (∀ pf ∈ L, validPathB pf.1 = true) →
      (encryptPassP encP now L m log).2 =
        log ++ (L.filter fun pf =>
          needsUpdate pf.2 (findFile m.files (mirrorPath pf.1))).map Prod.fst := by
  induction L with
  | nil => intro m log _ _; simp [encryptPassP]
  | cons hd rest ih =>
    intro m log hnd hv
    obtain ⟨q, gd⟩ := hd
    have hndr : q ∉ keys rest ∧ (keys rest).Nodup := List.nodup_cons.mp hnd
    have hvq : validPathB q = true := hv (q, gd) (List.mem_cons_self _ _)
    have hvr : ∀ pf ∈ rest, validPathB pf.1 = true :=
      fun pf hx => hv pf (List.mem_cons_of_mem _ hx)
    by_cases hu : needsUpdate gd (findFile m.files (mirrorPath q)) = true
    · simp only [encryptPassP, if_pos hu]
      rw [ih _ _ hndr.2 hvr]
      have hsame : rest.filter (fun pf =>
          needsUpdate pf.2 (findFile (m.setFile (mirrorPath q) ⟨now, encP gd.content⟩).files
            (mirrorPath pf.1))) =
          rest.filter (fun pf => needsUpdate pf.2 (findFile m.files (mirrorPath pf.1))) := by
        apply List.filter_congr
        intro pf hx
        have hne : mirrorPath pf.1 ≠ mirrorPath q := by
          refine mirrorPath_ne_of_ne (hvr pf hx) hvq ?_
          intro he
          exact hndr.1 (he ▸ mem_keys.mpr ⟨pf.2, hx⟩)
        rw [findFile_setFile_ne _ _ _ _ hne]
      rw [hsame]
      simp [hu, List.filter_cons]
    · simp only [encryptPassP, if_neg hu]
      rw [ih _ _ hndr.2 hvr]
      simp only [Bool.not_eq_true] at hu
      simp [hu, List.filter_cons]

theorem encryptPassP_entries (encP : List Nat → List Nat) (now : Nat)
    (L : List (Path × FileData)) (P : Path → Prop) :
    ∀ m log, (∀ qf ∈ m.files, P qf.1) → (∀ pf ∈ L, P (mirrorPath pf.1)) →
      ∀ qf ∈ (encryptPassP encP now L m log).1.files, P qf.1 := by
  induction L with
  | nil => intro m log hm _ qf hq; exact hm qf hq
  | cons hd rest ih =>
    intro m log hm hL
    obtain ⟨p, fd⟩ := hd
    have hLr : ∀ pf ∈ rest, P (mirrorPath pf.1) :=
      fun pf hx => hL pf (List.mem_cons_of_mem _ hx)
    by_cases hu : needsUpdate fd (findFile m.files (mirrorPath p)) = true
    · simp only [encryptPassP, if_pos hu]
      refine ih _ _ ?_ hLr
      intro qf hq
      rcases mem_setFile hq with he | he
      · exact he ▸ hL (p, fd) (List.mem_cons_self _ _)
      · exact hm qf he
    · simp only [encryptPassP, if_neg hu]
      exact ih _ _ hm hLr

theorem encryptPassP_nodup (encP : List Nat → List Nat) (now : Nat)
    (L : List (Path × FileData)) :
    ∀ m log, (keys m.files).Nodup → (keys (encryptPassP encP now L m log).1.files).Nodup := by
  induction L with
  | nil => intro m log hm; exact hm
  | cons hd rest ih =>
    intro m log hm
    obtain ⟨p, fd⟩ := hd
    by_cases hu : needsUpdate fd (findFile m.files (mirrorPath p)) = true
    · simp only [encryptPassP, if_pos hu]
      exact ih _ _ (keys_nodup_setFile _ _ _ hm)
    · simp only [encryptPassP, if_neg hu]
      exact ih _ _ hm

theorem encryptPassP_no_update (encP : List Nat → List Nat) (now : Nat)
    (L : List (Path × FileData)) :
    ∀ m log, (∀ pf ∈ L, needsUpdate pf.2 (findFile m.files (mirrorPath pf.1)) = false) →
      encryptPassP encP now L m log = (m, log) := by
  induction L with
  | nil => intro m log _; rfl
  | cons hd rest ih =>
    intro m log h
    obtain ⟨p, fd⟩ := hd
    have hhd : needsUpdate fd (findFile m.files (mirrorPath p)) = false :=
      h (p, fd) (List.mem_cons_self _ _)
    simp only [encryptPassP, hhd, Bool.false_eq_true, if_false]
    exact ih _ _ fun pf hx => h pf (List.mem_cons_of_mem _ hx)

theorem encryptPassE_pure (encP : List Nat → List Nat) (now : Nat)
    (L : List (Path × FileData)) :
    ∀ m log, encryptPassE (fun c => Except.ok (encP c)) now L m log =
      Except.ok (encryptPassP encP now L m log) := by
  induction L with
  | nil => intro m log; rfl
  | cons hd rest ih =>
    intro m log
    obtain ⟨p, fd⟩ := hd
    by_cases hu : needsUpdate fd (findFile m.files (mirrorPath p)) = true
    · simp only [encryptPassE, encryptPassP, if_pos hu]
      exact ih _ _
    · simp only [encryptPassE, encryptPassP, if_neg hu]
      exact ih _ _

theorem encryptPassE_fails (enc : List Nat → Except Unit (List Nat)) (now : Nat)
    (L : List (Path × FileData)) :
    ∀ m log, (keys L).Nodup → (∀ pf ∈ L, validPathB pf.1 = true) →
      (∃ pf ∈ L, needsUpdate pf.2 (findFile m.files (mirrorPath pf.1)) = true ∧
        isErr (enc pf.2.content) = true) →
      ∃ q, encryptPassE enc now L m log = Except.error q := by
  induction L with
  | nil => intro m log _ _ h; simp at h
  | cons hd rest ih =>
    intro m log hnd hv h
    obtain ⟨q, gd⟩ := hd
    have hndr : q ∉ keys rest ∧ (keys rest).Nodup := List.nodup_cons.mp hnd
    have hvq : validPathB q = true := hv (q, gd) (List.mem_cons_self _ _)
    have hvr : ∀ pf ∈ rest, validPathB pf.1 = true :=
      fun pf hx => hv pf (List.mem_cons_of_mem _ hx)
    by_cases hu : needsUpdate gd (findFile m.files (mirrorPath q)) = true
    · cases henc : enc gd.content with
      | error e =>
        refine ⟨q, ?_⟩
        simp only [encryptPassE, if_pos hu, henc]
      | ok c =>
        simp only [encryptPassE, if_pos hu, henc]
        refine ih _ _ hndr.2 hvr ?_
        rcases h with ⟨pf, hpf, hne, herr⟩
        rcases List.mem_cons.mp hpf with he | he
        · exfalso
          rw [he, henc] at herr
          simp [isErr] at herr
        · refine ⟨pf, he, ?_, herr⟩
          have hne2 : mirrorPath pf.1 ≠ mirrorPath q := by
            refine mirrorPath_ne_of_ne (hvr pf he) hvq ?_
            intro hx
            exact hndr.1 (hx ▸ mem_keys.mpr ⟨pf.2, he⟩)
          rwa [findFile_setFile_ne _ _ _ _ hne2]
    · simp only [encryptPassE, if_neg hu]
      refine ih _ _ hndr.2 hvr ?_
      rcases h with ⟨pf, hpf, hne, herr⟩
      rcases List.mem_cons.mp hpf with he | he
      · exfalso
        rw [he] at hne
        exact hu hne
      · exact ⟨pf, he, hne, herr⟩

/-! Lemmas on the orphan-removal and empty-directory passes. -/

theorem orphanFilter_lookup_keep (courses : Tree) (L : List (Path × FileData)) (k : Path)
    (h : keepEnc courses k = true) :
    findFile (orphanFilter courses L) k = findFile L k := by
  induction L with
  | nil => rfl
  | cons hd rest ih =>
    obtain ⟨q, fd⟩ := hd
    by_cases hq : q = k
    · subst hq
      simp only [orphanFilter, h, if_true]
      simp [findFile]
    · by_cases hk : keepEnc courses q = true
      · simp only [orphanFilter, if_pos hk]
        simp [findFile, hq, ih]
      · simp only [orphanFilter, if_neg hk]
        simp [findFile, hq, ih]

theorem orphanFilter_lookup_drop (courses : Tree) (L : List (Path × FileData)) (k : Path)
    (h : keepEnc courses k = false) :
    findFile (orphanFilter courses L) k = none := by
  induction L with
  | nil => rfl
  | cons hd rest ih =>
    obtain ⟨q, fd⟩ := hd
    by_cases hk : keepEnc courses q = true
    · have hq : q ≠ k := by
        intro he
        rw [he, h] at hk
        exact Bool.false_ne_true hk
      simp only [orphanFilter, if_pos hk]
      simp [findFile, hq, ih]
    · simp only [orphanFilter, if_neg hk]
      exact ih

theorem orphanFilter_sublist (courses : Tree) (L : List (Path × FileData)) :
    (orphanFilter courses L).Sublist L := by
  induction L with
  | nil => simp [orphanFilter]
  | cons hd rest ih =>
    obtain ⟨q, fd⟩ := hd
    by_cases hk : keepEnc courses q = true
    · simpa [orphanFilter, hk] using List.Sublist.cons₂ (q, fd) ih
    · simpa [orphanFilter, hk] using List.Sublist.cons (q, fd) ih

theorem orphanFilter_nodup (courses : Tree) (L : List (Path × FileData))
    (h : (keys L).Nodup) : (keys (orphanFilter courses L)).Nodup :=
  List.Nodup.sublist (List.Sublist.map Prod.fst (orphanFilter_sublist courses L)) h

theorem pruneEmptyDirs_files (m : Tree) : (pruneEmptyDirs m).files = m.files := rfl

theorem orphanPass_dirs (courses m : Tree) : (orphanPass courses m).dirs = m.dirs := rfl

theorem mem_pruneEmptyDirs {m : Tree} {d : Path} :
    d ∈ (pruneEmptyDirs m).dirs ↔
      d ∈ m.dirs ∧ ∃ qf ∈ m.files, d <+: qf.1 ∧ d ≠ qf.1 := by
  simp [pruneEmptyDirs, List.mem_filter, hasFileUnder, List.any_eq_true]

/-! Lemmas on the decryption pass of `pull_courses`. -/

theorem decryptPass_untouched (dec : List Nat → Except Unit (List Nat)) (now : Nat)
    (L : List (Path × FileData)) (k : Path) :
    ∀ cs failed, (∀ qf ∈ L, ¬(isAgeFile qf.1 = true ∧ stripAgePath qf.1 = k)) →
      findFile (decryptPass dec now L cs failed).1.files k = findFile cs.files k := by
  induction L with
  | nil => intro cs failed _; rfl
  | cons hd rest ih =>
    intro cs failed h
    obtain ⟨q, gd⟩ := hd
    have hh := h (q, gd) (List.mem_cons_self _ _)
    have hrest : ∀ qf ∈ rest, ¬(isAgeFile qf.1 = true ∧ stripAgePath qf.1 = k) :=
      fun qf hx => h qf (List.mem_cons_of_mem _ hx)
    by_cases ha : isAgeFile q = true
    · have hsk : stripAgePath q ≠ k := fun he => hh ⟨ha, he⟩
      cases hdec : dec gd.content with
      | ok c =>
        simp only [decryptPass, if_pos ha, hdec]
        rw [ih _ _ hrest, findFile_setFile_ne _ _ _ _ (Ne.symm hsk)]
      | error e =>
        simp only [decryptPass, if_pos ha, hdec]
        exact ih _ _ hrest
    · simp only [decryptPass, if_neg ha]
      exact ih _ _ hrest

theorem decryptPass_lookup (dec : List Nat → Except Unit (List Nat)) (now : Nat)
    (L : List (Path × FileData)) (k₀ : Path) (m : FileData) (c : List Nat) :
    ∀ cs failed, (k₀, m) ∈ L → (keys L).Nodup → (∀ qf ∈ L, ageFileInv qf.1) →
      isAgeFile k₀ = true → dec m.content = Except.ok c →
      findFile (decryptPass dec now L cs failed).1.files (stripAgePath k₀) =
        some ⟨now, c⟩ := by
  induction L with
  | nil => intro cs failed hm _ _ _ _; simp at hm
  | cons hd rest ih =>
    intro cs failed hm hnd hinv ha hok
    obtain ⟨q, gd⟩ := hd
    have hndr : q ∉ keys rest ∧ (keys rest).Nodup := List.nodup_cons.mp hnd
    have hinvr : ∀ qf ∈ rest, ageFileInv qf.1 :=
      fun qf hx => hinv qf (List.mem_cons_of_mem _ hx)
    by_cases hq : q = k₀
    · subst hq
      have hhead : gd = m := by
        rcases List.mem_cons.mp hm with he | he
        · exact (congrArg Prod.snd he).symm
        · exact absurd (mem_keys.mpr ⟨m, he⟩) hndr.1
      subst hhead
      simp only [decryptPass, if_pos ha, hok]
      have huntouched : ∀ qf ∈ rest, ¬(isAgeFile qf.1 = true ∧
          stripAgePath qf.1 = stripAgePath q) := by
        rintro qf hx ⟨hage, hstrip⟩
        have hq1 : qf.1 = mirrorPath (stripAgePath qf.1) := (hinvr qf hx hage).symm
        have hq2 : mirrorPath (stripAgePath q) = q := hinv (q, gd) (List.mem_cons_self _ _) ha
        have : qf.1 = q := by rw [hq1, hstrip, hq2]
        exact hndr.1 (this ▸ mem_keys.mpr ⟨qf.2, hx⟩)
      rw [decryptPass_untouched _ _ _ _ _ _ huntouched, findFile_setFile_self]
    · have hmr : (k₀, m) ∈ rest := by
        rcases List.mem_cons.mp hm with he | he
        · exact absurd (congrArg Prod.fst he).symm hq
        · exact he
      by_cases hage : isAgeFile q = true
      · cases hdec : dec gd.content with
        | ok c2 =>
          simp only [decryptPass, if_pos hage, hdec]
          exact ih _ _ hmr hndr.2 hinvr ha hok
        | error e =>
          simp only [decryptPass, if_pos hage, hdec]
          exact ih _ _ hmr hndr.2 hinvr ha hok
      · simp only [decryptPass, if_neg hage]
        exact ih _ _ hmr hndr.2 hinvr ha hok

theorem decryptPass_failed (dec : List Nat → Except Unit (List Nat)) (now : Nat)
    (L : List (Path × FileData)) :
    ∀ cs failed, (decryptPass dec now L cs failed).2 =
      failed ++ (L.filter fun qf =>
        isAgeFile qf.1 && isErr (dec qf.2.content)).map Prod.fst := by
  induction L with
  | nil => intro cs failed; simp [decryptPass]
  | cons hd rest ih =>
    intro cs failed
    obtain ⟨q, gd⟩ := hd
    by_cases hage : isAgeFile q = true
    · cases hdec : dec gd.content with
      | ok c =>
        simp only [decryptPass, if_pos hage, hdec]
        rw [ih]
        simp [List.filter_cons, hage, hdec, isErr]
      | error e =>
        simp only [decryptPass, if_pos hage, hdec]
        rw [ih]
        simp [List.filter_cons, hage, hdec, isErr]
    · simp only [decryptPass, if_neg hage]
      rw [ih]
      have hage' : isAgeFile q = false := by simpa using hage
      simp [List.filter_cons, hage']

/-! Lemmas on the git command sequence and the staged set. -/

theorem ignoredByPushGitignore_ageKey : ignoredByPushGitignore ageKeyRel = true := by decide

theorem ageKey_not_staged (index worktree : List Path) (h : ageKeyRel ∉ index) :
    ageKeyRel ∉ stagedAfterAddAll index worktree := by
  intro hmem
  have hp := (List.mem_filter.mp hmem).2
  rw [ignoredByPushGitignore_ageKey] at hp
  simp only [Bool.not_true, Bool.false_or] at hp
  exact h ((memPath_iff index ageKeyRel).mp hp)

theorem stagedSets_avoid (wts : List (List Path)) :
    ∀ idx, ageKeyRel ∉ idx → ∀ st ∈ stagedSets wts idx, ageKeyRel ∉ st := by
  induction wts with
  | nil => intro idx _ st hst; simp [stagedSets] at hst
  | cons wt rest ih =>
    intro idx hidx st hst
    rcases List.mem_cons.mp hst with he | he
    · rw [he]
      exact ageKey_not_staged idx wt hidx
    · exact ih _ (ageKey_not_staged idx wt hidx) st he

theorem encryptPassP_dirs (encP : List Nat → List Nat) (now : Nat)
    (L : List (Path × FileData)) :
    ∀ m log, (encryptPassP encP now L m log).1.dirs = m.dirs := by
  induction L with
  | nil => intro m log; rfl
  | cons hd rest ih =>
    intro m log
    obtain ⟨p, fd⟩ := hd
    by_cases hu : needsUpdate fd (findFile m.files (mirrorPath p)) = true
    · simp only [encryptPassP, if_pos hu]
      exact ih _ _
    · simp only [encryptPassP, if_neg hu]
      exact ih _ _

theorem isPrefixOfB_refl (l : List Char) : isPrefixOfB l l = true := by
  induction l with
  | nil => rfl
  | cons c cs ih => simp [isPrefixOfB, ih]

theorem hasInfixB_append (n pre : List Char) : hasInfixB n (pre ++ n) = true := by
  induction pre with
  | nil =>
    cases n with
    | nil => rfl
    | cons c cs => simp [hasInfixB, isPrefixOfB_refl]
  | cons c cs ih => simp [hasInfixB, ih]

theorem pullGitOutcome_never_exits (fetchOk : Bool) (statusOut : List Char)
    (resetOk pullOk : Bool) :
    (pullGitOutcome fetchOk statusOut resetOk pullOk).1 = ProcOutcome.continue0 := by
  cases h : pullGitAction fetchOk statusOut resetOk pullOk <;> simp [pullGitOutcome, h]

theorem isEmptyTree_false_of_mem {courses : Tree} {p : Path} {fd : FileData}
    (h : (p, fd) ∈ courses.files) : isEmptyTree courses = false := by
  cases hfl : courses.files with
  | nil => rw [hfl] at h; simp at h
  | cons a l => simp [isEmptyTree, hfl]

theorem orphanPass_files (courses m : Tree) :
    (orphanPass courses m).files = orphanFilter courses m.files := rfl

theorem mem_map_fst_filter (L : List (Path × FileData)) (f : Path × FileData → Bool)
    (p : Path) :
    p ∈ (L.filter f).map Prod.fst ↔ ∃ fd, (p, fd) ∈ L ∧ f (p, fd) = true := by
  constructor
  · intro h
    rcases List.mem_map.mp h with ⟨⟨q, fd⟩, hq, he⟩
    rcases List.mem_filter.mp hq with ⟨hL, hf⟩
    have hqp : q = p := he
    subst hqp
    exact ⟨fd, hL, hf⟩
  · rintro ⟨fd, hL, hf⟩
    exact List.mem_map.mpr ⟨(p, fd), List.mem_filter.mpr ⟨hL, hf⟩, rfl⟩

theorem pushRunP_mirror_lookup (encP : List Nat → List Nat) (now : Nat)
    (courses mirror : Tree) (p : Path) (fd : FileData)
    (hp : (p, fd) ∈ courses.files)
    (hndC : (keys courses.files).Nodup)
    (hvC : ∀ pf ∈ courses.files, validPathB pf.1 = true) :
    findFile (pushRunP encP now courses mirror).mirror.files (mirrorPath p) =
      if needsUpdate fd (findFile mirror.files (mirrorPath p)) then
        some ⟨now, encP fd.content⟩
      else findFile mirror.files (mirrorPath p) := by
  have hvp : validPathB p = true := hvC (p, fd) hp
  have hne : isEmptyTree courses = false := isEmptyTree_false_of_mem hp
  have hne' : ¬ isEmptyTree courses = true := by simp [hne]
  have hkeep : keepEnc courses (mirrorPath p) = true := by
    simp [keepEnc, isAgeFile_mirrorPath p hvp, stripAge_mirrorPath p hvp, existsPath,
      isSome_findFile_of_mem hp]
  simp only [pushRunP, if_neg hne']
  rw [pruneEmptyDirs_files, orphanPass_files, orphanFilter_lookup_keep _ _ _ hkeep]
  exact encryptPassP_lookup encP now courses.files p fd _ [] hp hndC hvC

theorem pushRunP_mirror_wf (encP : List Nat → List Nat) (now : Nat)
    (courses mirror : Tree)
    (hndM : (keys mirror.files).Nodup)
    (hinvM : ∀ qf ∈ mirror.files, ageFileInv qf.1)
    (hvC : ∀ pf ∈ courses.files, validPathB pf.1 = true) :
    (keys (pushRunP encP now courses mirror).mirror.files).Nodup ∧
    ∀ qf ∈ (pushRunP encP now courses mirror).mirror.files, ageFileInv qf.1 := by
  by_cases hne : isEmptyTree courses = true
  · simp only [pushRunP, if_pos hne]
    exact ⟨hndM, hinvM⟩
  · simp only [pushRunP, if_neg hne]
    rw [pruneEmptyDirs_files, orphanPass_files]
    constructor
    · exact orphanFilter_nodup _ _ (encryptPassP_nodup encP now courses.files _ [] hndM)
    · intro qf hqf
      have hsub := (orphanFilter_sublist courses _).subset hqf
      exact encryptPassP_entries encP now courses.files ageFileInv
        (Tree.mk mirror.files (addDirs mirror.dirs courses.dirs)) [] hinvM
        (fun pf hx => ageFileInv_mirrorPath pf.1 (hvC pf hx)) qf hsub

/-- C1: for every file under the source tree, a push followed by a pull with
the matching key reproduces a file at the same relative path under the
courses directory with byte content equal to the original, assuming the
external encryption and decryption tools are mutually inverse (`hinv`), and
assuming every mirror entry the staleness test lets the push skip already
holds the ciphertext of the current source content (`hcons`; this holds
vacuously on a first push into an empty mirror). -/
theorem push_pull_roundtrip (encP : List Nat → List Nat)
    (dec : List Nat → Except Unit (List Nat))
    (hinv : ∀ c, dec (encP c) = Except.ok c)
    (courses mirror cs0 : Tree) (now now' : Nat)
    (hndC : (keys courses.files).Nodup)
    (hvC : ∀ pf ∈ courses.files, validPathB pf.1 = true)
    (hndM : (keys mirror.files).Nodup)
    (hinvM : ∀ qf ∈ mirror.files, ageFileInv qf.1)
    (hcons : ∀ p fd mfd, (p, fd) ∈ courses.files →
      findFile mirror.files (mirrorPath p) = some mfd →
      needsUpdate fd (some mfd) = false → mfd.content = encP fd.content)
    (p : Path) (fd : FileData) (hp : (p, fd) ∈ courses.files) :
    findFile (pullDecrypt dec now' (pushRunP encP now courses mirror).mirror
      cs0).courses.files p = some ⟨now', fd.content⟩ := by
  have hvp : validPathB p = true := hvC (p, fd) hp
  have hlook := pushRunP_mirror_lookup encP now courses mirror p fd hp hndC hvC
  have hexists : ∃ mfd,
      findFile (pushRunP encP now courses mirror).mirror.files (mirrorPath p) = some mfd ∧
      mfd.content = encP fd.content := by
    by_cases hu : needsUpdate fd (findFile mirror.files (mirrorPath p)) = true
    · exact ⟨⟨now, encP fd.content⟩, by rw [hlook, if_pos hu], rfl⟩
    · rw [hlook, if_neg hu]
      cases hm : findFile mirror.files (mirrorPath p) with
      | none =>
        rw [hm] at hu
        simp [needsUpdate] at hu
      | some mfd =>
        refine ⟨mfd, rfl, ?_⟩
        have hnu : needsUpdate fd (some mfd) = false := by
          rw [hm] at hu
          simpa using hu
        exact hcons p fd mfd hp hm hnu
  obtain ⟨mfd, hlook2, hcontent⟩ := hexists
  obtain ⟨hndF, hinvF⟩ := pushRunP_mirror_wf encP now courses mirror hndM hinvM hvC
  have hmem : (mirrorPath p, mfd) ∈ (pushRunP encP now courses mirror).mirror.files :=
    findFile_eq_some_mem hlook2
  have hage : isAgeFile (mirrorPath p) = true := isAgeFile_mirrorPath p hvp
  have hok : dec mfd.content = Except.ok fd.content := by
    rw [hcontent]
    exact hinv fd.content
  have := decryptPass_lookup dec now'
    (pushRunP encP now courses mirror).mirror.files (mirrorPath p) mfd fd.content
    cs0 [] hmem hndF hinvF hage hok
  rw [stripAge_mirrorPath p hvp] at this
  simpa [pullDecrypt] using this

/-- C1 check: the scenario `math/hw1.txt` pushed into an empty mirror and
pulled back on a fresh device reproduces its bytes. -/
theorem push_pull_roundtrip_check :
    findFile (pullDecrypt decW 9 (pushRunP encW 5 coursesW emptyTree).mirror
      emptyTree).courses.files hw1Path = some ⟨9, [7, 7]⟩ :=
  push_pull_roundtrip encW decW (fun c => rfl) coursesW emptyTree emptyTree 5 9
    (by decide) (by decide) (by decide) (by decide)
    (by intro p fd mfd hm hf hn; simp [emptyTree, findFile] at hf)
    hw1Path ⟨5, [7, 7]⟩ (by decide)

/-- C2: across any sequence of pushes starting from the repository
`configure_repo` sets up (where only `.gitignore` is tracked), the staged
set of every push excludes the private key path `config/age_key.txt`: the
`.gitignore` that `push_courses` writes ignores everything under `config/`,
and the key is never already tracked. -/
theorem private_key_never_staged (wts : List (List Path)) :
    ∀ st ∈ stagedSets wts initialIndex, ageKeyRel ∉ st :=
  stagedSets_avoid wts initialIndex (by decide)

/-- C2 check: a concrete push whose worktree contains the private key file
does not stage it. -/
theorem private_key_never_staged_check :
    stagedAfterAddAll initialIndex wt1W ∈ stagedSets wtsW initialIndex ∧
    ageKeyRel ∉ stagedAfterAddAll initialIndex wt1W :=
  ⟨by decide, private_key_never_staged wtsW _ (by decide)⟩

/-- C3 counterexample: running push twice with no source change does perform
zero encryption operations on the second run, but not zero commits — the
git snapshot sequence of lines 223-232 is unconditional, so the second run
still creates one commit (and force-pushes it). This refutes the claim as
stated at a concrete input. -/
theorem second_push_still_commits :
    (pushRunP encW 20 coursesW (pushRunP encW 10 coursesW emptyTree).mirror).encLog = [] ∧
    List.countP isCommitCmd
      (pushRunP encW 20 coursesW (pushRunP encW 10 coursesW emptyTree).mirror).gitCmds = 1 := by
  decide

/-- C3 amended: a second push with no source changes (and a first-push clock
not earlier than every source modification time) performs zero encryption
operations, but the git sequence still runs in full — `push_courses` never
checks whether anything is staged, so the second run commits and pushes a
fresh snapshot anyway. -/
theorem second_push_no_reencrypt_but_commits (encP : List Nat → List Nat)
    (now1 now2 : Nat) (courses mirror : Tree)
    (hndC : (keys courses.files).Nodup)
    (hvC : ∀ pf ∈ courses.files, validPathB pf.1 = true)
    (hne : isEmptyTree courses = false)
    (hnow : ∀ pf ∈ courses.files, pf.2.mtime ≤ now1) :
    (pushRunP encP now2 courses (pushRunP encP now1 courses mirror).mirror).encLog = [] ∧
    (pushRunP encP now2 courses (pushRunP encP now1 courses mirror).mirror).gitCmds =
      pushGitSequence := by
  have hne' : ¬ isEmptyTree courses = true := by simp [hne]
  set M1 := (pushRunP encP now1 courses mirror).mirror with hM1
  have hstale : ∀ pf ∈ courses.files,
      needsUpdate pf.2 (findFile M1.files (mirrorPath pf.1)) = false := by
    intro pf hpf
    have hlook := pushRunP_mirror_lookup encP now1 courses mirror pf.1 pf.2
      (by simpa using hpf) hndC hvC
    rw [hM1]
    by_cases hu : needsUpdate pf.2 (findFile mirror.files (mirrorPath pf.1)) = true
    · rw [hlook, if_pos hu]
      simp [needsUpdate]
      exact hnow pf hpf
    · rw [hlook, if_neg hu]
      simpa using hu
  have hfix := encryptPassP_no_update encP now2 courses.files
    (Tree.mk M1.files (addDirs M1.dirs courses.dirs)) [] hstale
  constructor
  · simp only [pushRunP, if_neg hne']
    rw [hfix]
  · simp only [pushRunP, if_neg hne']

/-- C3 check: the concrete two-push run of the counterexample satisfies the
amended claim. -/
theorem second_push_no_reencrypt_but_commits_check :
    (pushRunP encW 20 coursesW (pushRunP encW 10 coursesW emptyTree).mirror).encLog = [] ∧
    (pushRunP encW 20 coursesW (pushRunP encW 10 coursesW emptyTree).mirror).gitCmds =
      pushGitSequence :=
  second_push_no_reencrypt_but_commits encW 10 20 coursesW emptyTree
    (by decide) (by decide) (by decide) (by decide)

/-- C4: during push, a source file is re-encrypted iff its mirror file is
absent or the source's modification time is strictly greater than the
mirror's; a source file whose staleness test is negative leaves its mirror
entry exactly as it was. -/
theorem reencrypt_iff_stale (encP : List Nat → List Nat) (now : Nat)
    (courses mirror : Tree) (p : Path)
    (hndC : (keys courses.files).Nodup)
    (hvC : ∀ pf ∈ courses.files, validPathB pf.1 = true) :
    (p ∈ (pushRunP encP now courses mirror).encLog ↔
      ∃ fd, (p, fd) ∈ courses.files ∧
        needsUpdate fd (findFile mirror.files (mirrorPath p)) = true) ∧
    ∀ fd, (p, fd) ∈ courses.files →
      needsUpdate fd (findFile mirror.files (mirrorPath p)) = false →
      findFile (pushRunP encP now courses mirror).mirror.files (mirrorPath p) =
        findFile mirror.files (mirrorPath p) := by
  constructor
  · by_cases hne : isEmptyTree courses = true
    · have hfl : courses.files = [] := by
        have h1 : courses.files.isEmpty = true := (Bool.and_eq_true ..).mp hne |>.1
        simpa using h1
      simp [pushRunP, hne, hfl]
    · simp only [pushRunP, if_neg hne]
      rw [encryptPassP_log encP now courses.files _ [] hndC hvC]
      simp only [List.nil_append]
      exact mem_map_fst_filter courses.files _ p
  · intro fd hp hnu
    have hlook := pushRunP_mirror_lookup encP now courses mirror p fd hp hndC hvC
    rw [hlook, if_neg (by simp [hnu])]

/-- C4 check: on a first push into an empty mirror, `math/hw1.txt` is
re-encrypted (its mirror file is absent), matching the characterization. -/
theorem reencrypt_iff_stale_check :
    (hw1Path ∈ (pushRunP encW 10 coursesW emptyTree).encLog ↔
      ∃ fd, (hw1Path, fd) ∈ coursesW.files ∧
        needsUpdate fd (findFile emptyTree.files (mirrorPath hw1Path)) = true) ∧
    ∀ fd, (hw1Path, fd) ∈ coursesW.files →
      needsUpdate fd (findFile emptyTree.files (mirrorPath hw1Path)) = false →
      findFile (pushRunP encW 10 coursesW emptyTree).mirror.files (mirrorPath hw1Path) =
        findFile emptyTree.files (mirrorPath hw1Path) :=
  reencrypt_iff_stale encW 10 coursesW emptyTree hw1Path (by decide) (by decide)

/-- C5: when a source file has been deleted (its path no longer exists under
the source root), the push removes its encrypted mirror entry, and — after
the encryption and orphan passes of the same push — the mirror keeps exactly
the directories with some file still strictly below them (the mirror root is
not represented and hence never removed). -/
theorem orphan_pruned_after_push (encP : List Nat → List Nat) (now : Nat)
    (courses mirror : Tree) (p : Path)
    (hvp : validPathB p = true)
    (hgone : existsPath courses p = false)
    (hne : isEmptyTree courses = false) :
    findFile (pushRunP encP now courses mirror).mirror.files (mirrorPath p) = none ∧
    ∀ d, d ∈ (pushRunP encP now courses mirror).mirror.dirs ↔
      (d ∈ addDirs mirror.dirs courses.dirs ∧
        ∃ qf ∈ (pushRunP encP now courses mirror).mirror.files, d <+: qf.1 ∧ d ≠ qf.1) := by
  have hne' : ¬ isEmptyTree courses = true := by simp [hne]
  have hkeep : keepEnc courses (mirrorPath p) = false := by
    simp [keepEnc, isAgeFile_mirrorPath p hvp, stripAge_mirrorPath p hvp, hgone]
  constructor
  · simp only [pushRunP, if_neg hne']
    rw [pruneEmptyDirs_files, orphanPass_files]
    exact orphanFilter_lookup_drop _ _ _ hkeep
  · intro d
    simp only [pushRunP, if_neg hne']
    rw [mem_pruneEmptyDirs, pruneEmptyDirs_files, orphanPass_dirs,
      encryptPassP_dirs encP now courses.files _ []]

/-- C5 check: after deleting `b.txt`, a push removes `b.txt.age` from the
mirror. -/
theorem orphan_pruned_after_push_check :
    findFile (pushRunP encW 7 coursesW5 mirrorW5).mirror.files (mirrorPath pGoneW) = none :=
  (orphan_pruned_after_push encW 7 coursesW5 mirrorW5 pGoneW
    (by decide) (by decide) (by decide)).1

/-- C6: the divergence test of line 249 (`"branch.ab" in out and "+" in
out`) is satisfied by any porcelain-v2 status with an upstream, including a
strictly-behind, fast-forwardable one (`+0 -1` — not diverged), so the pull
takes the hard-reset branch instead of the fast-forward branch that the
claim and the code's own comments describe. -/
theorem pull_treats_behind_as_diverged :
    divergedCheck statusBehindOnly = true ∧
    pullGitAction true statusBehindOnly true true = PullGitAction.resetDiverged := by
  decide

/-- C7: if the external encryption tool reports a non-zero exit status for
some file the staleness test selects, the whole push aborts with an error
(the uncaught `CalledProcessError`): no result is produced, so the orphan
pass, the empty-directory pass and the git sequence never run. -/
theorem encrypt_failure_aborts_push (enc : List Nat → Except Unit (List Nat)) (now : Nat)
    (courses mirror : Tree)
    (hndC : (keys courses.files).Nodup)
    (hvC : ∀ pf ∈ courses.files, validPathB pf.1 = true)
    (hfail : ∃ pf ∈ courses.files,
      needsUpdate pf.2 (findFile mirror.files (mirrorPath pf.1)) = true ∧
      isErr (enc pf.2.content) = true) :
    ∃ q, pushRunE enc now courses mirror = Except.error q := by
  obtain ⟨pf, hpf, hcond⟩ := hfail
  have hne : isEmptyTree courses = false :=
    @isEmptyTree_false_of_mem courses pf.1 pf.2 (by simpa using hpf)
  have hne' : ¬ isEmptyTree courses = true := by simp [hne]
  obtain ⟨q, hq⟩ := encryptPassE_fails enc now courses.files
    { mirror with dirs := addDirs mirror.dirs courses.dirs } [] hndC hvC
    ⟨pf, hpf, hcond⟩
  refine ⟨q, ?_⟩
  simp only [pushRunE, if_neg hne', hq]

/-- C7 check: with a failing encryption tool, the concrete push aborts. -/
theorem encrypt_failure_aborts_push_check :
    ∃ q, pushRunE encFailW 5 coursesW emptyTree = Except.error q :=
  encrypt_failure_aborts_push encFailW 5 coursesW emptyTree (by decide) (by decide)
    (by decide)

/-- C8: a per-file decryption failure during pull is non-fatal: every other
`.age` file whose decryption succeeds is still written to its destination,
and the failing files are exactly the `.age` files on which the external
tool fails (each reported, the loop continuing). -/
theorem decrypt_failure_skips_and_continues (dec : List Nat → Except Unit (List Nat))
    (now : Nat) (mirror cs0 : Tree)
    (hndM : (keys mirror.files).Nodup)
    (hinvM : ∀ qf ∈ mirror.files, ageFileInv qf.1)
    (q : Path) (fd : FileData) (c : List Nat)
    (hq : (q, fd) ∈ mirror.files) (hage : isAgeFile q = true)
    (hok : dec fd.content = Except.ok c) :
    findFile (pullDecrypt dec now mirror cs0).courses.files (stripAgePath q) =
      some ⟨now, c⟩ ∧
    (pullDecrypt dec now mirror cs0).failed =
      (mirror.files.filter fun qf =>
        isAgeFile qf.1 && isErr (dec qf.2.content)).map Prod.fst := by
  constructor
  · have := decryptPass_lookup dec now mirror.files q fd c cs0 [] hq hndM hinvM hage hok
    simpa [pullDecrypt] using this
  · have := decryptPass_failed dec now mirror.files cs0 []
    simpa [pullDecrypt] using this

/-- C8 check: with one good and one foreign-keyed blob, the good file is
decrypted and exactly the bad one is reported. -/
theorem decrypt_failure_skips_and_continues_check :
    findFile (pullDecrypt decW 3 mirrorW8 emptyTree).courses.files
      (stripAgePath ["a.txt.age".toList]) = some ⟨3, [3]⟩ ∧
    (pullDecrypt decW 3 mirrorW8 emptyTree).failed =
      (mirrorW8.files.filter fun qf =>
        isAgeFile qf.1 && isErr (decW qf.2.content)).map Prod.fst :=
  decrypt_failure_skips_and_continues decW 3 mirrorW8 emptyTree (by decide) (by decide)
    ["a.txt.age".toList] ⟨1, [0, 3]⟩ [3] (by decide) (by decide) rfl

/-- C9 counterexample: `git fetch` is a required external command of pull,
yet its failure does not terminate the process with a non-zero exit status —
`pull_courses` prints a diagnostic and returns to the menu, the process
continuing (and the decryption phase is not reached). -/
theorem pull_fetch_failure_process_continues :
    pullGitOutcome false statusBehindOnly true true = (ProcOutcome.continue0, false) ∧
    isFatalExit (pullGitOutcome false statusBehindOnly true true).1 = false := by
  decide

/-- C9 amended: failures of commands invoked through `run` exit the process
with status 1 and a diagnostic naming the command, and `check=True`
invocations raise an uncaught error naming the command (a non-zero
interpreter exit); but the git phase of pull never terminates the process on
failure — fetch and reset failures only print and return to the menu. -/
theorem run_failure_exits_but_pull_returns (cmd statusOut : List Char)
    (fo r p : Bool) :
    runFn cmd false = ProcOutcome.exitNonzero 1 (runErrMsg cmd) ∧
    hasInfixB cmd (runErrMsg cmd) = true ∧
    checkedRun cmd false = ProcOutcome.raisedError cmd ∧
    (pullGitOutcome fo statusOut r p).1 = ProcOutcome.continue0 := by
  refine ⟨rfl, ?_, rfl, pullGitOutcome_never_exits fo statusOut r p⟩
  exact hasInfixB_append cmd ("Error running: ".toList)

/-- C10: every push run replaces the local branch history with a single new
orphan commit snapshotting the staged set, and force-pushes it: afterwards
the local `main` and the remote branch both consist of exactly that one
commit, independent of any previous history; the sequence contains exactly
one commit command. -/
theorem push_resets_history_to_single_commit (s : GitState) :
    findBr (runGit pushGitSequence s).branches "main" =
      some [⟨stagedAfterAddAll s.index s.worktree, snapshotMsg⟩] ∧
    (runGit pushGitSequence s).remoteMain =
      [⟨stagedAfterAddAll s.index s.worktree, snapshotMsg⟩] ∧
    List.countP isCommitCmd pushGitSequence = 1 := by
  refine ⟨?_, ?_, by decide⟩ <;>
    simp [pushGitSequence, runGit, gitStep, setBr, removeBr, findBr]

end ClassGit
